import Mathlib

/-!
# Verification of `Concurrency & Thread Safety/ThreadSafetyDemo.cpp`

Shallow embedding of the three counter variants of the thread-safety
demonstration and of the harness that runs each variant under two workers
performing 1000 increments each.

Modelling choices, traced to the source:

* `UnsafeCounter::increment` performs `count++` on a plain `int` with no
  synchronization, so its read-modify-write can be interleaved.  We split it
  into two scheduler steps: a *read* that latches the shared counter into a
  thread-local temporary, and a *write* that stores `temporary + 1` back.
* `SafeCounterOnlyMutex::increment` takes a `lock_guard<mutex>` for the whole
  `count++` and releases it when the guard is destroyed.  We model an explicit
  lock owner and a four-phase critical section per increment:
  acquire → read → write → release.  A thread whose acquire finds the mutex
  held blocks (its scheduler step is a no-op).
* `SafeCounterAtomic::increment` performs `count++` on `atomic<int>`, a single
  hardware fetch-and-add, so it is one indivisible scheduler step.
* The two workers of `runThreadsUnsafe` / `runThreadsSafe` /
  `runThreadsAtomic` are driven by an arbitrary schedule: a `List Bool` whose
  entries pick which thread moves next.  `false` is thread `t1`, `true` is
  thread `t2`.  A run is *complete* when both workers have finished their
  1000 increments (both `join`s have returned).
* Counter values are `Int` (the C++ `int`; all values reached stay within
  `[0, 2000]`, far from overflow, so plain integers are faithful).
-/

namespace ThreadSafetyDemo

/-- Loop bound of each worker: `for (int i = 0; i < 1000; ++i)`. -/
def incrementsPerWorker : Nat := 1000

/-! ## Unprotected variant (`UnsafeCounter`) -/

/-- Thread-local state of a worker hammering an `UnsafeCounter`:
how many increments it still has to perform, and the latched value of a
read whose write-back has not happened yet (`none` between increments). -/
structure UThread where
  remaining : Nat
  tmp : Option Int
deriving Repr, DecidableEq

/-- Shared state of an `UnsafeCounter` run: the counter and two workers. -/
structure UState where
  counter : Int
  thr1 : UThread
  thr2 : UThread
deriving Repr, DecidableEq

def UThread.init (n : Nat) : UThread := ⟨n, none⟩

/-- A fresh `UnsafeCounter` (`int count = 0`) shared by two fresh workers. -/
def UState.init (n : Nat) : UState := ⟨0, UThread.init n, UThread.init n⟩

/-- One scheduler step of a single worker on the unprotected counter.
If a read is pending, store back `tmp + 1` (the non-atomic write of
`count++`); otherwise, if iterations remain, latch the current counter
value (the non-atomic read); a finished worker does nothing. -/
def ustepThread (c : Int) (th : UThread) : Int × UThread :=
  match th.tmp with
  | some v => (v + 1, ⟨th.remaining - 1, none⟩)
  | none =>
    if th.remaining = 0 then (c, th)
    else (c, ⟨th.remaining, some c⟩)

/-- One scheduler step of the whole unprotected run: the chosen thread
(`false` = t1, `true` = t2) moves. -/
def ustep (s : UState) (t : Bool) : UState :=
  if t then
    let p := ustepThread s.counter s.thr2
    ⟨p.1, s.thr1, p.2⟩
  else
    let p := ustepThread s.counter s.thr1
    ⟨p.1, p.2, s.thr2⟩

/-- Run the unprotected counter demonstration under a given interleaving. -/
def urun (sched : List Bool) (s : UState) : UState :=
  sched.foldl ustep s

/-- A worker is done once all its increments have been written back. -/
def UThread.done (th : UThread) : Prop := th.remaining = 0 ∧ th.tmp = none

instance (th : UThread) : Decidable th.done :=
  inferInstanceAs (Decidable (th.remaining = 0 ∧ th.tmp = none))

/-- Both `t1.join()` and `t2.join()` have returned. -/
def UState.complete (s : UState) : Prop := s.thr1.done ∧ s.thr2.done

instance (s : UState) : Decidable s.complete :=
  inferInstanceAs (Decidable (s.thr1.done ∧ s.thr2.done))

/-- Number of write-backs already performed in state `s` when each worker
started with `n` increments. -/
def uwrites (n : Nat) (s : UState) : Nat :=
  (n - s.thr1.remaining) + (n - s.thr2.remaining)

/-- A latched read value is a counter value observed earlier: it is
nonnegative, at most the number of writes performed so far, and its
write-back is still owed (`1 ≤ remaining`). -/
def utmpOK (w : Nat) (th : UThread) : Prop :=
  match th.tmp with
  | none => True
  | some v => 0 ≤ v ∧ v ≤ (w : Int) ∧ 1 ≤ th.remaining

/-- Inductive invariant of the unprotected run: the counter stays within
`[0, uwrites]`, is at least `1` once anything was written, and every
latched read value is bounded the same way. -/
def UInv (n : Nat) (s : UState) : Prop :=
  s.thr1.remaining ≤ n ∧ s.thr2.remaining ≤ n ∧
  utmpOK (uwrites n s) s.thr1 ∧ utmpOK (uwrites n s) s.thr2 ∧
  0 ≤ s.counter ∧ s.counter ≤ (uwrites n s : Int) ∧
  (1 ≤ uwrites n s → 1 ≤ s.counter)

theorem UInv_init (n : Nat) : UInv n (UState.init n) := by
  simp [UInv, UState.init, UThread.init, uwrites, utmpOK]

theorem UInv_step {n : Nat} {s : UState} (h : UInv n s) (t : Bool) :
    UInv n (ustep s t) := by
  obtain ⟨c, ⟨r1, o1⟩, ⟨r2, o2⟩⟩ := s
  obtain ⟨h1, h2, h3, h4, h5, h6, h7⟩ := h
  simp only [uwrites] at h3 h4 h6 h7 ⊢
  cases t <;> cases o1 <;> cases o2 <;>
    simp only [ustep, ustepThread, UInv, utmpOK, uwrites] at * <;>
    split_ifs at * <;>
    simp_all <;>
    omega

theorem UInv_run {n : Nat} (sched : List Bool) {s : UState} (h : UInv n s) :
    UInv n (urun sched s) := by
  induction sched generalizing s with
  | nil => exact h
  | cons t rest ih => exact ih (UInv_step h t)

/-! ## Mutex-protected variant (`SafeCounterOnlyMutex`) -/

/-- Where a worker of the mutex-protected counter stands inside
`increment()`:  outside the critical section (`idle`), holding the
`lock_guard` before reading (`acquired`), holding it with the read value
latched (`readDone v`), or holding it after the write-back of `count++`
but before the guard's destructor runs (`written`). -/
inductive LPhase where
  | idle
  | acquired
  | readDone (v : Int)
  | written
deriving Repr, DecidableEq

/-- Thread-local state of a worker on the mutex-protected counter. -/
structure LThread where
  remaining : Nat
  phase : LPhase
deriving Repr, DecidableEq

/-- Shared state of a `SafeCounterOnlyMutex` run: the counter, the mutex
(`lockOwner = some t` iff thread `t` currently holds `mtx`), and the two
workers. -/
structure LState where
  counter : Int
  lockOwner : Option Bool
  thr1 : LThread
  thr2 : LThread
deriving Repr, DecidableEq

def LThread.init (n : Nat) : LThread := ⟨n, .idle⟩

/-- A fresh `SafeCounterOnlyMutex` (`int count = 0`, mutex unlocked)
shared by two fresh workers. -/
def LState.init (n : Nat) : LState := ⟨0, none, LThread.init n, LThread.init n⟩

/-- One scheduler step of a single worker on the mutex-protected counter.
An idle worker with iterations left acquires the mutex if it is free and
blocks (no-op) otherwise; inside the critical section it reads, then
writes back `read value + 1`, then releases the mutex when the
`lock_guard` goes out of scope, completing one increment. -/
def lstepThread (c : Int) (owner : Option Bool) (me : Bool) (th : LThread) :
    Int × Option Bool × LThread :=
  match th.phase with
  | .idle =>
    if th.remaining = 0 then (c, owner, th)
    else if owner = none then (c, some me, ⟨th.remaining, .acquired⟩)
    else (c, owner, th)
  | .acquired => (c, owner, ⟨th.remaining, .readDone c⟩)
  | .readDone v => (v + 1, owner, ⟨th.remaining, .written⟩)
  | .written => (c, none, ⟨th.remaining - 1, .idle⟩)

/-- One scheduler step of the whole mutex-protected run. -/
def lstep (s : LState) (t : Bool) : LState :=
  match t with
  | true =>
    let p := lstepThread s.counter s.lockOwner true s.thr2
    ⟨p.1, p.2.1, s.thr1, p.2.2⟩
  | false =>
    let p := lstepThread s.counter s.lockOwner false s.thr1
    ⟨p.1, p.2.1, p.2.2, s.thr2⟩

/-- Run the mutex-protected counter demonstration under a given
interleaving. -/
def lrun (sched : List Bool) (s : LState) : LState :=
  sched.foldl lstep s

/-- A worker is done once all its increments finished (guard released). -/
def LThread.done (th : LThread) : Prop := th.remaining = 0 ∧ th.phase = .idle

instance (th : LThread) : Decidable th.done :=
  inferInstanceAs (Decidable (th.remaining = 0 ∧ th.phase = .idle))

/-- Both `t1.join()` and `t2.join()` have returned. -/
def LState.complete (s : LState) : Prop := s.thr1.done ∧ s.thr2.done

instance (s : LState) : Decidable s.complete :=
  inferInstanceAs (Decidable (s.thr1.done ∧ s.thr2.done))

/-- Value `1` while the worker has written back but not yet released: its
increment is counted by the counter but not yet by `remaining`. -/
def LThread.pendingWrite (th : LThread) : Nat :=
  if th.phase = .written then 1 else 0

/-- Increments fully accounted in the counter in state `s`. -/
def lwrites (n : Nat) (s : LState) : Nat :=
  (n - s.thr1.remaining) + (n - s.thr2.remaining) +
    s.thr1.pendingWrite + s.thr2.pendingWrite

/-- Inductive invariant of the mutex-protected run: a worker is inside its
critical section exactly when it owns the mutex (hence at most one is), a
latched read value is still the current counter value (nobody else can
write while the reader holds the lock), and the counter equals the number
of increments performed — no lost updates. -/
def LInv (n : Nat) (s : LState) : Prop :=
  s.thr1.remaining ≤ n ∧ s.thr2.remaining ≤ n ∧
  (s.lockOwner = some false ↔ s.thr1.phase ≠ .idle) ∧
  (s.lockOwner = some true ↔ s.thr2.phase ≠ .idle) ∧
  (s.thr1.phase ≠ .idle → 1 ≤ s.thr1.remaining) ∧
  (s.thr2.phase ≠ .idle → 1 ≤ s.thr2.remaining) ∧
  (∀ v, s.thr1.phase = .readDone v → v = s.counter) ∧
  (∀ v, s.thr2.phase = .readDone v → v = s.counter) ∧
  s.counter = (lwrites n s : Int)

theorem LInv_init (n : Nat) : LInv n (LState.init n) := by
  simp [LInv, LState.init, LThread.init, lwrites, LThread.pendingWrite]

theorem LInv_step {n : Nat} {s : LState} (h : LInv n s) (t : Bool) :
    LInv n (lstep s t) := by
  obtain ⟨c, ow, ⟨r1, p1⟩, ⟨r2, p2⟩⟩ := s
  obtain ⟨h1, h2, h3, h4, h5, h6, h7, h8, h9⟩ := h
  dsimp only at h1 h2 h3 h4 h5 h6 h7 h8 h9
  simp only [lwrites, LThread.pendingWrite] at h9
  dsimp only at h9
  cases t
  · -- thread 1 moves
    cases p1
    case idle =>
      rcases Nat.eq_zero_or_pos r1 with hr | hr
      · subst hr
        simp only [lstep, lstepThread, if_pos rfl]
        exact ⟨h1, h2, h3, h4, h5, h6, h7, h8, by
          simp only [LInv, lwrites, LThread.pendingWrite]
          exact h9⟩
      · rcases Option.eq_none_or_eq_some ow with how | ⟨b, how⟩
        · subst how
          have hp2 : p2 = .idle := by
            by_contra hne
            have hbad := h4.mpr hne
            simp at hbad
          subst hp2
          simp only [lstep, lstepThread, if_neg (Nat.pos_iff_ne_zero.mp hr), if_pos rfl,
            LInv, lwrites, LThread.pendingWrite]
          refine ⟨h1, h2, by simp, by simp, fun _ => hr, by simp, by simp, by simp, ?_⟩
          simpa using h9
        · subst how
          simp only [lstep, lstepThread, if_neg (Nat.pos_iff_ne_zero.mp hr),
            if_neg (by simp : ¬ (some b = none)), LInv, lwrites, LThread.pendingWrite]
          refine ⟨h1, h2, h3, h4, h5, h6, h7, h8, ?_⟩
          simpa using h9
    case acquired =>
      have how : ow = some false := h3.mpr (by simp)
      have hp2 : p2 = .idle := by
        by_contra hne
        have hbad := h4.mpr hne
        rw [how] at hbad
        simp at hbad
      subst how hp2
      simp only [lstep, lstepThread, LInv, lwrites, LThread.pendingWrite]
      refine ⟨h1, h2, by simp, by simp, fun _ => h5 (by simp), by simp, ?_, by simp, ?_⟩
      · intro v hv
        simpa using hv.symm
      · simpa using h9
    case readDone v0 =>
      have how : ow = some false := h3.mpr (by simp)
      have hp2 : p2 = .idle := by
        by_contra hne
        have hbad := h4.mpr hne
        rw [how] at hbad
        simp at hbad
      subst how hp2
      have hv0 : v0 = c := h7 v0 rfl
      have hr : 1 ≤ r1 := h5 (by simp)
      subst hv0
      simp only [lstep, lstepThread, LInv, lwrites, LThread.pendingWrite]
      refine ⟨h1, h2, by simp, by simp, fun _ => hr, by simp, by simp, by simp, ?_⟩
      simp only [reduceCtorEq, if_true, if_false, if_pos rfl]
      simp only [reduceCtorEq, if_false] at h9
      omega
    case written =>
      have how : ow = some false := h3.mpr (by simp)
      have hp2 : p2 = .idle := by
        by_contra hne
        have hbad := h4.mpr hne
        rw [how] at hbad
        simp at hbad
      subst how hp2
      have hr : 1 ≤ r1 := h5 (by simp)
      simp only [lstep, lstepThread, LInv, lwrites, LThread.pendingWrite]
      refine ⟨by omega, h2, by simp, by simp, by simp, by simp, by simp, by simp, ?_⟩
      simp at h9 ⊢
      omega
  · -- thread 2 moves
    cases p2
    case idle =>
      rcases Nat.eq_zero_or_pos r2 with hr | hr
      · subst hr
        simp only [lstep, lstepThread, if_pos rfl]
        exact ⟨h1, h2, h3, h4, h5, h6, h7, h8, by
          simp only [LInv, lwrites, LThread.pendingWrite]
          exact h9⟩
      · rcases Option.eq_none_or_eq_some ow with how | ⟨b, how⟩
        · subst how
          have hp1 : p1 = .idle := by
            by_contra hne
            have hbad := h3.mpr hne
            simp at hbad
          subst hp1
          simp only [lstep, lstepThread, if_neg (Nat.pos_iff_ne_zero.mp hr), if_pos rfl,
            LInv, lwrites, LThread.pendingWrite]
          refine ⟨h1, h2, by simp, by simp, by simp, fun _ => hr, by simp, by simp, ?_⟩
          simpa using h9
        · subst how
          simp only [lstep, lstepThread, if_neg (Nat.pos_iff_ne_zero.mp hr),
            if_neg (by simp : ¬ (some b = none)), LInv, lwrites, LThread.pendingWrite]
          refine ⟨h1, h2, h3, h4, h5, h6, h7, h8, ?_⟩
          simpa using h9
    case acquired =>
      have how : ow = some true := h4.mpr (by simp)
      have hp1 : p1 = .idle := by
        by_contra hne
        have hbad := h3.mpr hne
        rw [how] at hbad
        simp at hbad
      subst how hp1
      simp only [lstep, lstepThread, LInv, lwrites, LThread.pendingWrite]
      refine ⟨h1, h2, by simp, by simp, by simp, fun _ => h6 (by simp), by simp, ?_, ?_⟩
      · intro v hv
        simpa using hv.symm
      · simpa using h9
    case readDone v0 =>
      have how : ow = some true := h4.mpr (by simp)
      have hp1 : p1 = .idle := by
        by_contra hne
        have hbad := h3.mpr hne
        rw [how] at hbad
        simp at hbad
      subst how hp1
      have hv0 : v0 = c := h8 v0 rfl
      have hr : 1 ≤ r2 := h6 (by simp)
      subst hv0
      simp only [lstep, lstepThread, LInv, lwrites, LThread.pendingWrite]
      refine ⟨h1, h2, by simp, by simp, by simp, fun _ => hr, by simp, by simp, ?_⟩
      simp only [reduceCtorEq, if_true, if_false, if_pos rfl]
      simp only [reduceCtorEq, if_false] at h9
      omega
    case written =>
      have how : ow = some true := h4.mpr (by simp)
      have hp1 : p1 = .idle := by
        by_contra hne
        have hbad := h3.mpr hne
        rw [how] at hbad
        simp at hbad
      subst how hp1
      have hr : 1 ≤ r2 := h6 (by simp)
      simp only [lstep, lstepThread, LInv, lwrites, LThread.pendingWrite]
      refine ⟨h1, by omega, by simp, by simp, by simp, by simp, by simp, by simp, ?_⟩
      simp at h9 ⊢
      omega

theorem LInv_run {n : Nat} (sched : List Bool) {s : LState} (h : LInv n s) :
    LInv n (lrun sched s) := by
  induction sched generalizing s with
  | nil => exact h
  | cons t rest ih => exact ih (LInv_step h t)

/-! ## Atomic variant (`SafeCounterAtomic`) -/

/-- Thread-local state of a worker on the atomic counter: because
`count++` on `atomic<int>` is a single indivisible fetch-and-add, the
worker carries no partial read-modify-write state, only its remaining
iteration count. -/
structure AThread where
  remaining : Nat
deriving Repr, DecidableEq

/-- Shared state of a `SafeCounterAtomic` run.  Note there is no lock
component: the variant uses no explicit lock. -/
structure AState where
  counter : Int
  thr1 : AThread
  thr2 : AThread
deriving Repr, DecidableEq

def AThread.init (n : Nat) : AThread := ⟨n⟩

/-- A fresh `SafeCounterAtomic` (`atomic<int> count{0}`) shared by two
fresh workers. -/
def AState.init (n : Nat) : AState := ⟨0, AThread.init n, AThread.init n⟩

/-- One scheduler step of a single worker on the atomic counter: a whole
increment happens in one indivisible transition (hardware fetch-and-add);
a finished worker does nothing. -/
def astepThread (c : Int) (th : AThread) : Int × AThread :=
  if th.remaining = 0 then (c, th)
  else (c + 1, ⟨th.remaining - 1⟩)

/-- One scheduler step of the whole atomic run. -/
def astep (s : AState) (t : Bool) : AState :=
  match t with
  | true =>
    let p := astepThread s.counter s.thr2
    ⟨p.1, s.thr1, p.2⟩
  | false =>
    let p := astepThread s.counter s.thr1
    ⟨p.1, p.2, s.thr2⟩

/-- Run the atomic counter demonstration under a given interleaving. -/
def arun (sched : List Bool) (s : AState) : AState :=
  sched.foldl astep s

/-- Both `t1.join()` and `t2.join()` have returned. -/
def AState.complete (s : AState) : Prop :=
  s.thr1.remaining = 0 ∧ s.thr2.remaining = 0

instance (s : AState) : Decidable s.complete :=
  inferInstanceAs (Decidable (s.thr1.remaining = 0 ∧ s.thr2.remaining = 0))

/-- Inductive invariant of the atomic run: no update is ever lost, the
counter equals the number of increments performed so far. -/
def AInv (n : Nat) (s : AState) : Prop :=
  s.thr1.remaining ≤ n ∧ s.thr2.remaining ≤ n ∧
  s.counter = ((n - s.thr1.remaining) + (n - s.thr2.remaining) : Nat)

theorem AInv_init (n : Nat) : AInv n (AState.init n) := by
  simp [AInv, AState.init, AThread.init]

theorem AInv_step {n : Nat} {s : AState} (h : AInv n s) (t : Bool) :
    AInv n (astep s t) := by
  obtain ⟨c, ⟨r1⟩, ⟨r2⟩⟩ := s
  obtain ⟨h1, h2, h3⟩ := h
  dsimp only at h1 h2 h3
  cases t <;>
    simp only [astep, astepThread, AInv] <;>
    split_ifs <;>
    simp_all <;>
    omega

theorem AInv_run {n : Nat} (sched : List Bool) {s : AState} (h : AInv n s) :
    AInv n (arun sched s) := by
  induction sched generalizing s with
  | nil => exact h
  | cons t rest ih => exact ih (AInv_step h t)

/-! ## Sequential (single-thread) runs

Closed-form results of letting one worker run alone: each of its
increments takes two scheduler steps in the unprotected model, four in the
mutex model and one in the atomic model. -/

theorem urun_replicate_false (r : Nat) : ∀ (c : Int) (o2 : UThread),
    urun (List.replicate (2 * r) false) ⟨c, ⟨r, none⟩, o2⟩ =
      ⟨c + (r : Int), ⟨0, none⟩, o2⟩ := by
  induction r with
  | zero => intro c o2; simp [urun]
  | succ k ih =>
    intro c o2
    have h2 : 2 * (k + 1) = 2 * k + 1 + 1 := by omega
    rw [h2, List.replicate_succ, List.replicate_succ]
    simp only [urun, List.foldl_cons] at ih ⊢
    have hs : ustep (ustep ⟨c, ⟨k + 1, none⟩, o2⟩ false) false =
        ⟨c + 1, ⟨k, none⟩, o2⟩ := by
      simp [ustep, ustepThread]
    rw [hs, ih (c + 1) o2]
    simp only [UState.mk.injEq, and_true, true_and]
    push_cast
    ring

theorem urun_replicate_true (r : Nat) : ∀ (c : Int) (o1 : UThread),
    urun (List.replicate (2 * r) true) ⟨c, o1, ⟨r, none⟩⟩ =
      ⟨c + (r : Int), o1, ⟨0, none⟩⟩ := by
  induction r with
  | zero => intro c o1; simp [urun]
  | succ k ih =>
    intro c o1
    have h2 : 2 * (k + 1) = 2 * k + 1 + 1 := by omega
    rw [h2, List.replicate_succ, List.replicate_succ]
    simp only [urun, List.foldl_cons] at ih ⊢
    have hs : ustep (ustep ⟨c, o1, ⟨k + 1, none⟩⟩ true) true =
        ⟨c + 1, o1, ⟨k, none⟩⟩ := by
      simp [ustep, ustepThread]
    rw [hs, ih (c + 1) o1]
    simp only [UState.mk.injEq, and_true, true_and]
    push_cast
    ring

theorem lrun_replicate_false (r : Nat) : ∀ (c : Int) (o2 : LThread),
    lrun (List.replicate (4 * r) false) ⟨c, none, ⟨r, .idle⟩, o2⟩ =
      ⟨c + (r : Int), none, ⟨0, .idle⟩, o2⟩ := by
  induction r with
  | zero => intro c o2; simp [lrun]
  | succ k ih =>
    intro c o2
    have h4 : 4 * (k + 1) = 4 * k + 1 + 1 + 1 + 1 := by omega
    rw [h4, List.replicate_succ, List.replicate_succ, List.replicate_succ,
      List.replicate_succ]
    simp only [lrun, List.foldl_cons] at ih ⊢
    have hs : lstep (lstep (lstep (lstep ⟨c, none, ⟨k + 1, .idle⟩, o2⟩
        false) false) false) false = ⟨c + 1, none, ⟨k, .idle⟩, o2⟩ := by
      simp [lstep, lstepThread]
    rw [hs, ih (c + 1) o2]
    simp only [LState.mk.injEq, and_true, true_and]
    push_cast
    ring

theorem lrun_replicate_true (r : Nat) : ∀ (c : Int) (o1 : LThread),
    lrun (List.replicate (4 * r) true) ⟨c, none, o1, ⟨r, .idle⟩⟩ =
      ⟨c + (r : Int), none, o1, ⟨0, .idle⟩⟩ := by
  induction r with
  | zero => intro c o1; simp [lrun]
  | succ k ih =>
    intro c o1
    have h4 : 4 * (k + 1) = 4 * k + 1 + 1 + 1 + 1 := by omega
    rw [h4, List.replicate_succ, List.replicate_succ, List.replicate_succ,
      List.replicate_succ]
    simp only [lrun, List.foldl_cons] at ih ⊢
    have hs : lstep (lstep (lstep (lstep ⟨c, none, o1, ⟨k + 1, .idle⟩⟩
        true) true) true) true = ⟨c + 1, none, o1, ⟨k, .idle⟩⟩ := by
      simp [lstep, lstepThread]
    rw [hs, ih (c + 1) o1]
    simp only [LState.mk.injEq, and_true, true_and]
    push_cast
    ring

theorem arun_replicate_false (r : Nat) : ∀ (c : Int) (o2 : AThread),
    arun (List.replicate r false) ⟨c, ⟨r⟩, o2⟩ =
      ⟨c + (r : Int), ⟨0⟩, o2⟩ := by
  induction r with
  | zero => intro c o2; simp [arun]
  | succ k ih =>
    intro c o2
    rw [List.replicate_succ]
    simp only [arun, List.foldl_cons] at ih ⊢
    have hs : astep ⟨c, ⟨k + 1⟩, o2⟩ false = ⟨c + 1, ⟨k⟩, o2⟩ := by
      simp [astep, astepThread]
    rw [hs, ih (c + 1) o2]
    simp only [AState.mk.injEq, and_true, true_and]
    push_cast
    ring

theorem arun_replicate_true (r : Nat) : ∀ (c : Int) (o1 : AThread),
    arun (List.replicate r true) ⟨c, o1, ⟨r⟩⟩ =
      ⟨c + (r : Int), o1, ⟨0⟩⟩ := by
  induction r with
  | zero => intro c o1; simp [arun]
  | succ k ih =>
    intro c o1
    rw [List.replicate_succ]
    simp only [arun, List.foldl_cons] at ih ⊢
    have hs : astep ⟨c, o1, ⟨k + 1⟩⟩ true = ⟨c + 1, o1, ⟨k⟩⟩ := by
      simp [astep, astepThread]
    rw [hs, ih (c + 1) o1]
    simp only [AState.mk.injEq, and_true, true_and]
    push_cast
    ring

/-! ## Harness (`runThreads*` and `main`)

Each `runThreads*` function spawns two workers, lets the scheduler
interleave them and returns only after both joins: the final counter value
can be observed exactly when the run is complete, which the `Option`
result enforces. -/

/-- Embeds `runThreadsUnsafe`: two workers, `incrementsPerWorker` unprotected
increments each; the value is available only after both joins. -/
def runThreadsUnsafe (sched : List Bool) : Option Int :=
  let s := urun sched (UState.init incrementsPerWorker)
  if s.complete then some s.counter else none

/-- Embeds `runThreadsSafe`: same harness over the mutex-protected counter. -/
def runThreadsSafe (sched : List Bool) : Option Int :=
  let s := lrun sched (LState.init incrementsPerWorker)
  if s.complete then some s.counter else none

/-- Embeds `runThreadsAtomic`: same harness over the atomic counter. -/
def runThreadsAtomic (sched : List Bool) : Option Int :=
  let s := arun sched (AState.init incrementsPerWorker)
  if s.complete then some s.counter else none

/-- Final `UnsafeCounter` value printed by `main` (`unsafeObj.count`). -/
def unsafeFinal (sched : List Bool) : Int :=
  (urun sched (UState.init incrementsPerWorker)).counter

/-- Final `SafeCounterOnlyMutex` value printed by `main` (`safeObj.count`). -/
def safeFinal (sched : List Bool) : Int :=
  (lrun sched (LState.init incrementsPerWorker)).counter

/-- Final `SafeCounterAtomic` value printed by `main`
(`atomicObj.count.load()`). -/
def atomicFinal (sched : List Bool) : Int :=
  (arun sched (AState.init incrementsPerWorker)).counter

/-- The one line a demonstration run prints:
`"<Label> Value (Expected 2000): <value>"`. -/
def demoLine (label : String) (v : Int) : String :=
  label ++ " Value (Expected 2000): " ++ toString v

/-- Everything `main` writes to the console, given the scheduling of each
of its three demonstration runs; `main` has no other external effect in
the source (no files, network, configuration or persisted state). -/
def mainOutput (s1 s2 s3 : List Bool) : List String :=
  ["--- C++ Concurrency & Thread Safety Demo ---",
   "Unsafe Counter Value (Expected 2000): " ++ toString (unsafeFinal s1),
   "Safe Counter (Mutex) Value (Expected 2000): " ++ toString (safeFinal s2),
   "Safe Counter (Atomic) Value (Expected 2000): " ++ toString (atomicFinal s3)]

/-- The exit code of `main`, which ends with `return 0`. -/
def mainExitCode : Int := 0

/-! ## Distinguished schedules -/

/-- Fully sequential schedule for the unprotected run: thread 1 performs
all its increments (two steps each), then thread 2. -/
def seqScheduleU (n : Nat) : List Bool :=
  List.replicate (2 * n) false ++ List.replicate (2 * n) true

/-- Fully sequential schedule for the mutex-protected run (four steps per
increment). -/
def seqScheduleL (n : Nat) : List Bool :=
  List.replicate (4 * n) false ++ List.replicate (4 * n) true

/-- Fully sequential schedule for the atomic run (one step per
increment). -/
def seqScheduleA (n : Nat) : List Bool :=
  List.replicate (n) false ++ List.replicate (n) true

/-- A racy schedule for the unprotected run: thread 1 reads `0`, thread 2
then performs all its increments, thread 1 overwrites them with its stale
`0 + 1` and finishes alone.  It loses all of thread 2's updates. -/
def racySchedule (n : Nat) : List Bool :=
  [false] ++ List.replicate (2 * n) true ++ [false] ++
    List.replicate (2 * (n - 1)) false

theorem urun_seqU (n : Nat) :
    urun (seqScheduleU n) (UState.init n) =
      ⟨(n : Int) + n, ⟨0, none⟩, ⟨0, none⟩⟩ := by
  simp only [seqScheduleU, urun, List.foldl_append, UState.init, UThread.init]
  have h1 := urun_replicate_false n 0 (UThread.init n)
  simp only [urun, UThread.init, zero_add] at h1
  rw [h1]
  have h2 := urun_replicate_true n n ⟨0, none⟩
  simp only [urun] at h2
  exact h2

theorem lrun_seqL (n : Nat) :
    lrun (seqScheduleL n) (LState.init n) =
      ⟨(n : Int) + n, none, ⟨0, .idle⟩, ⟨0, .idle⟩⟩ := by
  simp only [seqScheduleL, lrun, List.foldl_append, LState.init, LThread.init]
  have h1 := lrun_replicate_false n 0 (LThread.init n)
  simp only [lrun, LThread.init, zero_add] at h1
  rw [h1]
  have h2 := lrun_replicate_true n n ⟨0, .idle⟩
  simp only [lrun] at h2
  exact h2

theorem arun_seqA (n : Nat) :
    arun (seqScheduleA n) (AState.init n) =
      ⟨(n : Int) + n, ⟨0⟩, ⟨0⟩⟩ := by
  simp only [seqScheduleA, arun, List.foldl_append, AState.init, AThread.init]
  have h1 := arun_replicate_false n 0 (AThread.init n)
  simp only [arun, AThread.init, zero_add] at h1
  rw [h1]
  have h2 := arun_replicate_true n n ⟨0⟩
  simp only [arun] at h2
  exact h2

/-- The racy schedule loses all of thread 2's `n` updates: the final value
is `n`, not `2 * n` (for `n = 1000`: `1000`, not `2000`). -/
theorem urun_racy (n : Nat) (hn : 1 ≤ n) :
    urun (racySchedule n) (UState.init n) =
      ⟨1 + ((n - 1 : Nat) : Int), ⟨0, none⟩, ⟨0, none⟩⟩ := by
  simp only [racySchedule, urun, List.foldl_append, List.foldl_cons,
    List.foldl_nil, UState.init, UThread.init]
  have hn0 : ¬ (n = 0) := by omega
  have hs1 : ustep ⟨0, ⟨n, none⟩, ⟨n, none⟩⟩ false =
      ⟨0, ⟨n, some 0⟩, ⟨n, none⟩⟩ := by
    simp [ustep, ustepThread, hn0]
  rw [hs1]
  have h2 := urun_replicate_true n 0 ⟨n, some 0⟩
  simp only [urun, zero_add] at h2
  rw [h2]
  have hs3 : ustep ⟨(n : Int), ⟨n, some 0⟩, ⟨0, none⟩⟩ false =
      ⟨1, ⟨n - 1, none⟩, ⟨0, none⟩⟩ := by
    simp [ustep, ustepThread]
  rw [hs3]
  have h4 := urun_replicate_false (n - 1) 1 ⟨0, none⟩
  simp only [urun] at h4
  exact h4

/-! ## Claims -/

/-- C1: For every run of the locked (mutex-protected) and atomic counter
demonstrations with two workers performing 1000 increments each, the final
counter value read after both workers are joined is always exactly 2000 —
for every interleaving of the two workers, hence on every run. -/
theorem locked_and_atomic_always_2000 (sl sa : List Bool)
    (hl : (lrun sl (LState.init incrementsPerWorker)).complete)
    (ha : (arun sa (AState.init incrementsPerWorker)).complete) :
    (lrun sl (LState.init incrementsPerWorker)).counter = 2000 ∧
    (arun sa (AState.init incrementsPerWorker)).counter = 2000 := by
  constructor
  · obtain ⟨-, -, -, -, -, -, -, -, h9⟩ :=
      LInv_run sl (LInv_init incrementsPerWorker)
    obtain ⟨⟨ha1, hb1⟩, ⟨ha2, hb2⟩⟩ := hl
    rw [h9]
    simp only [lwrites, LThread.pendingWrite, ha1, hb1, ha2, hb2,
      reduceCtorEq, if_false]
    norm_num [incrementsPerWorker]
  · obtain ⟨-, -, h3⟩ := AInv_run sa (AInv_init incrementsPerWorker)
    obtain ⟨ha1, ha2⟩ := ha
    rw [ha1, ha2] at h3
    rw [h3]
    simp [incrementsPerWorker]

/-- Witness for C1 at the sequential schedules. -/
theorem locked_and_atomic_always_2000_witness :
    (lrun (seqScheduleL incrementsPerWorker)
      (LState.init incrementsPerWorker)).counter = 2000 ∧
    (arun (seqScheduleA incrementsPerWorker)
      (AState.init incrementsPerWorker)).counter = 2000 :=
  locked_and_atomic_always_2000 _ _
    (by rw [lrun_seqL]; exact ⟨⟨rfl, rfl⟩, ⟨rfl, rfl⟩⟩)
    (by rw [arun_seqA]; exact ⟨rfl, rfl⟩)

/-- C2: For every complete run of the unprotected counter demonstration
with two workers performing 1000 increments each, the final counter value
lies in the inclusive range `[1, 2000]` (so it is at most 2000 and never
negative), and the exact value may vary between runs: two complete
schedules with different final values exist. -/
theorem unprotected_result_bounds (sched : List Bool)
    (h : (urun sched (UState.init incrementsPerWorker)).complete) :
    (1 ≤ (urun sched (UState.init incrementsPerWorker)).counter ∧
      (urun sched (UState.init incrementsPerWorker)).counter ≤ 2000) ∧
    ∃ s1 s2 : List Bool,
      (urun s1 (UState.init incrementsPerWorker)).complete ∧
      (urun s2 (UState.init incrementsPerWorker)).complete ∧
      (urun s1 (UState.init incrementsPerWorker)).counter ≠
        (urun s2 (UState.init incrementsPerWorker)).counter := by
  constructor
  · obtain ⟨-, -, -, -, -, h6, h7⟩ :=
      UInv_run sched (UInv_init incrementsPerWorker)
    obtain ⟨⟨ha1, -⟩, ⟨ha2, -⟩⟩ := h
    constructor
    · apply h7
      simp only [uwrites, ha1, ha2]
      norm_num [incrementsPerWorker]
    · have he : (uwrites incrementsPerWorker
          (urun sched (UState.init incrementsPerWorker)) : Int) = 2000 := by
        simp only [uwrites, ha1, ha2]
        norm_num [incrementsPerWorker]
      rw [he] at h6
      exact h6
  · refine ⟨seqScheduleU incrementsPerWorker, racySchedule incrementsPerWorker,
      ?_, ?_, ?_⟩
    · rw [urun_seqU]
      exact ⟨⟨rfl, rfl⟩, ⟨rfl, rfl⟩⟩
    · rw [urun_racy incrementsPerWorker (by norm_num [incrementsPerWorker])]
      exact ⟨⟨rfl, rfl⟩, ⟨rfl, rfl⟩⟩
    · rw [urun_seqU, urun_racy incrementsPerWorker (by norm_num [incrementsPerWorker])]
      norm_num [incrementsPerWorker]

/-- Witness for C2 at the sequential schedule. -/
theorem unprotected_result_bounds_witness :
    (1 ≤ (urun (seqScheduleU incrementsPerWorker)
        (UState.init incrementsPerWorker)).counter ∧
      (urun (seqScheduleU incrementsPerWorker)
        (UState.init incrementsPerWorker)).counter ≤ 2000) ∧
    ∃ s1 s2 : List Bool,
      (urun s1 (UState.init incrementsPerWorker)).complete ∧
      (urun s2 (UState.init incrementsPerWorker)).complete ∧
      (urun s1 (UState.init incrementsPerWorker)).counter ≠
        (urun s2 (UState.init incrementsPerWorker)).counter :=
  unprotected_result_bounds (seqScheduleU incrementsPerWorker)
    (by rw [urun_seqU]; exact ⟨⟨rfl, rfl⟩, ⟨rfl, rfl⟩⟩)

/-- C3: Each of the three demonstration runs (unprotected, mutex-protected
and atomic) starts from a fresh counter of value 0 shared by exactly two
workers; whenever a run's result is observable (both joins returned) each
worker has performed exactly its 1000 increments and the returned value is
the final counter value; a run whose workers have not both finished yields
no observable value (the join blocks). -/
theorem runDemo_structure (su sl sa : List Bool) (vu vl va : Int)
    (hu : runThreadsUnsafe su = some vu)
    (hl : runThreadsSafe sl = some vl)
    (ha : runThreadsAtomic sa = some va) :
    (UState.init incrementsPerWorker).counter = 0 ∧
    (LState.init incrementsPerWorker).counter = 0 ∧
    (AState.init incrementsPerWorker).counter = 0 ∧
    (urun su (UState.init incrementsPerWorker)).complete ∧
    (lrun sl (LState.init incrementsPerWorker)).complete ∧
    (arun sa (AState.init incrementsPerWorker)).complete ∧
    incrementsPerWorker -
      (urun su (UState.init incrementsPerWorker)).thr1.remaining = 1000 ∧
    incrementsPerWorker -
      (urun su (UState.init incrementsPerWorker)).thr2.remaining = 1000 ∧
    incrementsPerWorker -
      (lrun sl (LState.init incrementsPerWorker)).thr1.remaining = 1000 ∧
    incrementsPerWorker -
      (lrun sl (LState.init incrementsPerWorker)).thr2.remaining = 1000 ∧
    incrementsPerWorker -
      (arun sa (AState.init incrementsPerWorker)).thr1.remaining = 1000 ∧
    incrementsPerWorker -
      (arun sa (AState.init incrementsPerWorker)).thr2.remaining = 1000 ∧
    vu = (urun su (UState.init incrementsPerWorker)).counter ∧
    vl = (lrun sl (LState.init incrementsPerWorker)).counter ∧
    va = (arun sa (AState.init incrementsPerWorker)).counter ∧
    (∀ s, ¬ (urun s (UState.init incrementsPerWorker)).complete →
      runThreadsUnsafe s = none) ∧
    (∀ s, ¬ (lrun s (LState.init incrementsPerWorker)).complete →
      runThreadsSafe s = none) ∧
    (∀ s, ¬ (arun s (AState.init incrementsPerWorker)).complete →
      runThreadsAtomic s = none) := by
  by_cases hcu : (urun su (UState.init incrementsPerWorker)).complete
  case neg => simp [runThreadsUnsafe, hcu] at hu
  case pos =>
  by_cases hcl : (lrun sl (LState.init incrementsPerWorker)).complete
  case neg => simp [runThreadsSafe, hcl] at hl
  case pos =>
  by_cases hca : (arun sa (AState.init incrementsPerWorker)).complete
  case neg => simp [runThreadsAtomic, hca] at ha
  case pos =>
  simp only [runThreadsUnsafe, hcu, runThreadsSafe, hcl, if_true,
    runThreadsAtomic, hca, Option.some.injEq, if_pos] at hu hl ha
  obtain ⟨⟨hu1, hu1t⟩, ⟨hu2, hu2t⟩⟩ := hcu
  obtain ⟨⟨hl1, hl1p⟩, ⟨hl2, hl2p⟩⟩ := hcl
  obtain ⟨ha1, ha2⟩ := hca
  refine ⟨rfl, rfl, rfl, ⟨⟨hu1, hu1t⟩, ⟨hu2, hu2t⟩⟩,
    ⟨⟨hl1, hl1p⟩, ⟨hl2, hl2p⟩⟩, ⟨ha1, ha2⟩,
    ?_, ?_, ?_, ?_, ?_, ?_, hu.symm, hl.symm, ha.symm, ?_, ?_, ?_⟩
  · simp only [hu1]
    norm_num [incrementsPerWorker]
  · simp only [hu2]
    norm_num [incrementsPerWorker]
  · simp only [hl1]
    norm_num [incrementsPerWorker]
  · simp only [hl2]
    norm_num [incrementsPerWorker]
  · simp only [ha1]
    norm_num [incrementsPerWorker]
  · simp only [ha2]
    norm_num [incrementsPerWorker]
  · intro s hs
    simp [runThreadsUnsafe, hs]
  · intro s hs
    simp [runThreadsSafe, hs]
  · intro s hs
    simp [runThreadsAtomic, hs]

/-- Witness for C3 at the sequential schedules with value 2000. -/
theorem runDemo_structure_witness :
    (UState.init incrementsPerWorker).counter = 0 ∧
    (LState.init incrementsPerWorker).counter = 0 ∧
    (AState.init incrementsPerWorker).counter = 0 ∧
    (urun (seqScheduleU incrementsPerWorker)
      (UState.init incrementsPerWorker)).complete ∧
    (lrun (seqScheduleL incrementsPerWorker)
      (LState.init incrementsPerWorker)).complete ∧
    (arun (seqScheduleA incrementsPerWorker)
      (AState.init incrementsPerWorker)).complete ∧
    incrementsPerWorker - (urun (seqScheduleU incrementsPerWorker)
      (UState.init incrementsPerWorker)).thr1.remaining = 1000 ∧
    incrementsPerWorker - (urun (seqScheduleU incrementsPerWorker)
      (UState.init incrementsPerWorker)).thr2.remaining = 1000 ∧
    incrementsPerWorker - (lrun (seqScheduleL incrementsPerWorker)
      (LState.init incrementsPerWorker)).thr1.remaining = 1000 ∧
    incrementsPerWorker - (lrun (seqScheduleL incrementsPerWorker)
      (LState.init incrementsPerWorker)).thr2.remaining = 1000 ∧
    incrementsPerWorker - (arun (seqScheduleA incrementsPerWorker)
      (AState.init incrementsPerWorker)).thr1.remaining = 1000 ∧
    incrementsPerWorker - (arun (seqScheduleA incrementsPerWorker)
      (AState.init incrementsPerWorker)).thr2.remaining = 1000 ∧
    (2000 : Int) = (urun (seqScheduleU incrementsPerWorker)
      (UState.init incrementsPerWorker)).counter ∧
    (2000 : Int) = (lrun (seqScheduleL incrementsPerWorker)
      (LState.init incrementsPerWorker)).counter ∧
    (2000 : Int) = (arun (seqScheduleA incrementsPerWorker)
      (AState.init incrementsPerWorker)).counter ∧
    (∀ s, ¬ (urun s (UState.init incrementsPerWorker)).complete →
      runThreadsUnsafe s = none) ∧
    (∀ s, ¬ (lrun s (LState.init incrementsPerWorker)).complete →
      runThreadsSafe s = none) ∧
    (∀ s, ¬ (arun s (AState.init incrementsPerWorker)).complete →
      runThreadsAtomic s = none) :=
  runDemo_structure (seqScheduleU incrementsPerWorker)
    (seqScheduleL incrementsPerWorker) (seqScheduleA incrementsPerWorker)
    2000 2000 2000
    (by simp [runThreadsUnsafe, urun_seqU, UState.complete, UThread.done,
      incrementsPerWorker])
    (by simp [runThreadsSafe, lrun_seqL, LState.complete, LThread.done,
      incrementsPerWorker])
    (by simp [runThreadsAtomic, arun_seqA, AState.complete, incrementsPerWorker])

/-- C4: In the locked variant a worker holds the single mutex for its
whole read-modify-write (the mutex owner is `some t` exactly when worker
`t` is inside `increment()`'s critical section, so the two workers are
never both inside — the read-modify-write is serialized), the mutex is
free again whenever both workers are outside their critical sections
(released on every exit of the scope), and consequently no update is ever
lost: the counter always equals the number of increments performed. -/
theorem locked_increment_serialized (sched : List Bool) :
    ((lrun sched (LState.init incrementsPerWorker)).thr1.phase = .idle ∨
      (lrun sched (LState.init incrementsPerWorker)).thr2.phase = .idle) ∧
    (lrun sched (LState.init incrementsPerWorker)).lockOwner =
      (if (lrun sched (LState.init incrementsPerWorker)).thr1.phase = .idle then
        (if (lrun sched (LState.init incrementsPerWorker)).thr2.phase = .idle then
          none
        else some true)
      else some false) ∧
    (lrun sched (LState.init incrementsPerWorker)).counter =
      (lwrites incrementsPerWorker
        (lrun sched (LState.init incrementsPerWorker)) : Int) := by
  obtain ⟨-, -, h3, h4, -, -, -, -, h9⟩ :=
    LInv_run sched (LInv_init incrementsPerWorker)
  refine ⟨?_, ?_, h9⟩
  · by_cases hp1 : (lrun sched (LState.init incrementsPerWorker)).thr1.phase = .idle
    · exact Or.inl hp1
    · refine Or.inr ?_
      by_contra hp2
      have o1 := h3.mpr hp1
      have o2 := h4.mpr hp2
      rw [o1] at o2
      simp at o2
  · by_cases hp1 : (lrun sched (LState.init incrementsPerWorker)).thr1.phase = .idle
    · by_cases hp2 : (lrun sched (LState.init incrementsPerWorker)).thr2.phase = .idle
      · rw [if_pos hp1, if_pos hp2]
        rcases ho : (lrun sched (LState.init incrementsPerWorker)).lockOwner with - | b
        · rfl
        · cases b
          · exact absurd hp1 (h3.mp ho)
          · exact absurd hp2 (h4.mp ho)
      · rw [if_pos hp1, if_neg hp2]
        exact h4.mpr hp2
    · rw [if_neg hp1]
      exact h3.mpr hp1

/-- C5: The atomic variant's increment is a single indivisible
fetch-and-add transition: a worker with iterations left increments the
counter and decrements its budget in one step with no intermediate state
(and a finished worker leaves everything unchanged); accordingly every
scheduler step of the atomic run either changes nothing or bumps the
counter by exactly 1, and no update is ever lost — the counter always
equals the number of increments performed.  The model's state (`AState`)
carries no lock: no explicit lock is involved. -/
theorem atomic_increment_indivisible (sched : List Bool) (t : Bool)
    (c : Int) (r : Nat) :
    astepThread c ⟨r + 1⟩ = (c + 1, ⟨r⟩) ∧
    astepThread c ⟨0⟩ = (c, ⟨0⟩) ∧
    (astep (arun sched (AState.init incrementsPerWorker)) t =
        arun sched (AState.init incrementsPerWorker) ∨
      (astep (arun sched (AState.init incrementsPerWorker)) t).counter =
        (arun sched (AState.init incrementsPerWorker)).counter + 1) ∧
    (arun sched (AState.init incrementsPerWorker)).counter =
      (((incrementsPerWorker -
          (arun sched (AState.init incrementsPerWorker)).thr1.remaining) +
        (incrementsPerWorker -
          (arun sched (AState.init incrementsPerWorker)).thr2.remaining) : Nat) :
        Int) := by
  refine ⟨by simp [astepThread], by simp [astepThread], ?_,
    (AInv_run sched (AInv_init incrementsPerWorker)).2.2⟩
  have key : ∀ (s : AState) (b : Bool),
      astep s b = s ∨ (astep s b).counter = s.counter + 1 := by
    intro s b
    obtain ⟨cc, ⟨r1⟩, ⟨r2⟩⟩ := s
    cases b
    · by_cases h : r1 = 0 <;> simp [astep, astepThread, h]
    · by_cases h : r2 = 0 <;> simp [astep, astepThread, h]
  exact key _ t

/-- C6: The three demonstrations are independent: each operates on its
own freshly constructed counter starting at 0, each printed result is a
function of that demonstration's own run alone (changing the other two
demonstrations' schedules leaves it unchanged), so no demonstration
modifies another demonstration's counter and no state leaks between
runs. -/
theorem demo_runs_independent (s1 s2 s3 u1 u2 u3 : List Bool) :
    (UState.init incrementsPerWorker).counter = 0 ∧
    (LState.init incrementsPerWorker).counter = 0 ∧
    (AState.init incrementsPerWorker).counter = 0 ∧
    unsafeFinal s1 = (urun s1 (UState.init incrementsPerWorker)).counter ∧
    safeFinal s2 = (lrun s2 (LState.init incrementsPerWorker)).counter ∧
    atomicFinal s3 = (arun s3 (AState.init incrementsPerWorker)).counter ∧
    (mainOutput s1 s2 s3)[1]? = (mainOutput s1 u2 u3)[1]? ∧
    (mainOutput s1 s2 s3)[2]? = (mainOutput u1 s2 u3)[2]? ∧
    (mainOutput s1 s2 s3)[3]? = (mainOutput u1 u2 s3)[3]? :=
  ⟨rfl, rfl, rfl, rfl, rfl, rfl, rfl, rfl, rfl⟩

/-- C7: `main`'s console output is exactly a header line followed by one
line per demonstration run of the form
`"<Label> Value (Expected 2000): <value>"` with labels `Unsafe Counter`,
`Safe Counter (Mutex)` and `Safe Counter (Atomic)`; in the embedding
`mainOutput` is `main`'s entire external effect (no files, network,
configuration or persisted state appear in the source). -/
theorem main_prints_one_line_per_run (s1 s2 s3 : List Bool) :
    ∃ v1 v2 v3 : Int,
      mainOutput s1 s2 s3 =
        ["--- C++ Concurrency & Thread Safety Demo ---",
         demoLine "Unsafe Counter" v1,
         demoLine "Safe Counter (Mutex)" v2,
         demoLine "Safe Counter (Atomic)" v3] :=
  ⟨unsafeFinal s1, safeFinal s2, atomicFinal s3, rfl⟩

/-- C8: The harness has no recoverable error conditions: `mainOutput` and
`mainExitCode` are total functions (no error case exists in the model),
all three demonstration lines are produced unconditionally on every run
with no flags consulted, and the exit code is 0. -/
theorem main_no_error_paths (s1 s2 s3 : List Bool) :
    mainExitCode = 0 ∧
    (mainOutput s1 s2 s3).length = 4 ∧
    ((mainOutput s1 s2 s3)[1]?).isSome = true ∧
    ((mainOutput s1 s2 s3)[2]?).isSome = true ∧
    ((mainOutput s1 s2 s3)[3]?).isSome = true :=
  ⟨rfl, rfl, rfl, rfl, rfl⟩

/-- C9: In all three variants a fresh counter starts at exactly 0, an
increment writes back exactly one more than the value it read (it only
adds 1 and never writes less than what it read), and therefore after any
schedule of operations the counter value is nonnegative in every
variant. -/
theorem counters_start_zero_stay_nonneg (n : Nat) (sched : List Bool)
    (c v : Int) (r : Nat) (ow : Option Bool) (me : Bool) :
    (UState.init n).counter = 0 ∧
    (LState.init n).counter = 0 ∧
    (AState.init n).counter = 0 ∧
    (ustepThread c ⟨r, some v⟩).1 = v + 1 ∧
    (lstepThread c ow me ⟨r, .readDone v⟩).1 = v + 1 ∧
    (astepThread c ⟨r + 1⟩).1 = c + 1 ∧
    0 ≤ (urun sched (UState.init n)).counter ∧
    0 ≤ (lrun sched (LState.init n)).counter ∧
    0 ≤ (arun sched (AState.init n)).counter := by
  refine ⟨rfl, rfl, rfl, rfl, rfl, by simp [astepThread], ?_, ?_, ?_⟩
  · exact (UInv_run sched (UInv_init n)).2.2.2.2.1
  · rw [(LInv_run sched (LInv_init n)).2.2.2.2.2.2.2.2]
    exact Int.natCast_nonneg _
  · rw [(AInv_run sched (AInv_init n)).2.2]
    exact Int.natCast_nonneg _

/-- C10: Sequentially the three variants are behaviorally equivalent:
each variant's increment maps the value `v` it read to `v + 1`, and for
every `n`, `n` sequential increments by a single worker starting from a
fresh counter yield exactly `n` in all three variants. -/
theorem variants_sequentially_equivalent (n : Nat) (c v : Int) (r : Nat)
    (ow : Option Bool) (me : Bool) :
    (ustepThread c ⟨r, some v⟩).1 = v + 1 ∧
    (lstepThread c ow me ⟨r, .readDone v⟩).1 = v + 1 ∧
    (astepThread c ⟨r + 1⟩).1 = c + 1 ∧
    (urun (List.replicate (2 * n) false) (UState.init n)).counter = n ∧
    (lrun (List.replicate (4 * n) false) (LState.init n)).counter = n ∧
    (arun (List.replicate n false) (AState.init n)).counter = n := by
  refine ⟨rfl, rfl, by simp [astepThread], ?_, ?_, ?_⟩
  · rw [show UState.init n = ⟨0, ⟨n, none⟩, ⟨n, none⟩⟩ from rfl,
      urun_replicate_false]
    simp
  · rw [show LState.init n = ⟨0, none, ⟨n, .idle⟩, ⟨n, .idle⟩⟩ from rfl,
      lrun_replicate_false]
    simp
  · rw [show AState.init n = ⟨0, ⟨n⟩, ⟨n⟩⟩ from rfl, arun_replicate_false]
    simp

end ThreadSafetyDemo
